import Mathlib

/-!
Verification of the repository-resolution and fan-out engine of multigit
(src/src/lib.rs, with the superseded variant in src/src/main.rs).

Shallow embedding conventions:
- Filesystem paths are lists of components (`FPath`); the filesystem is a
  finite tree of named nodes (`FSNode`).
- The State Inspector facade (git2 queries: `RepositoryEntry::state`,
  `RepositoryEntry::has_tracking_branch`) is modelled as functions
  `FPath → Option Bool`; `none` models the query returning `Err`.
- A Rust panic (an `unwrap()` on an `Err`/`None`) is modelled as `none` in
  an `Option`-valued result: the surrounding computation produces nothing.
- `Vec::sort` on `Vec<PathBuf>` is modelled by a stable insertion sort over
  the component-wise lexicographic byte order (UTF-8 byte order coincides
  with code-point order, so comparing `Char.toNat` component-wise is the
  order `PathBuf::cmp` uses for these paths).
- The `HashMap<String, _>` registry maps are keyed by the absolutized path
  string and the claims only concern key membership, so they are modelled
  as duplicate-free lists of paths with insert/remove.
-/

namespace Multigit

/-- A filesystem path, as its list of components. -/
abbrev FPath := List String

/-- A filesystem tree: a named file or a named directory with children.
`.git` entries may be files or directories; `Path::exists` treats both alike. -/
inductive FSNode where
  | file (name : String)
  | dir (name : String) (children : List FSNode)
deriving Repr

/-- The name of a filesystem node. -/
def FSNode.name : FSNode → String
  | .file n => n
  | .dir n _ => n

/-- Whether a list of directory children contains an entry named `.git`.
For a directory `d` with children `cs`, this is `d.join(".git").exists()`. -/
def hasGitEntry (cs : List FSNode) : Bool :=
  cs.any (fun c => c.name == ".git")

/-- Rust `file_name().to_string_lossy().starts_with('.')`: the first
character of the name is a dot. -/
def startsWithDot (s : String) : Bool :=
  s.data.head? == some '.'

mutual
/-- Resolves a path from a root node to the node it denotes, if any
(mutually with `lookupKids`). -/
def lookup : FSNode → FPath → Option FSNode
  | n, [] => some n
  | .file _, _ :: _ => none
  | .dir _ cs, c :: rest => lookupKids cs c rest

def lookupKids : List FSNode → String → FPath → Option FSNode
  | [], _, _ => none
  | ch :: chs, c, rest => if ch.name == c then lookup ch rest else lookupKids chs c rest
end

/-- `is_git_repository` (src/src/lib.rs line 767): `path.join(".git").exists()`,
with `fs` the filesystem root the path is resolved against. -/
def is_git_repository (fs : FSNode) (p : FPath) : Bool :=
  (lookup fs (p ++ [".git"])).isSome

/-- Byte-order comparison of strings as the list of their characters
(UTF-8 byte order equals code-point order). -/
def charsLt : List Char → List Char → Bool
  | [], [] => false
  | [], _ :: _ => true
  | _ :: _, [] => false
  | a :: as, b :: bs =>
    if a.toNat < b.toNat then true
    else if b.toNat < a.toNat then false
    else charsLt as bs

/-- String comparison used by `PathBuf::cmp` on each component. -/
def strLt (a b : String) : Bool := charsLt a.data b.data

/-- `PathBuf::cmp`: component-wise lexicographic order on paths. -/
def pathLe : FPath → FPath → Bool
  | [], _ => true
  | _ :: _, [] => false
  | a :: as, b :: bs => if strLt a b then true else if strLt b a then false else pathLe as bs

/-- One insertion step of the stable sort modelling `Vec::sort`. -/
def insertPath (p : FPath) : List FPath → List FPath
  | [] => [p]
  | q :: rest => if pathLe p q then p :: q :: rest else q :: insertPath p rest

/-- `paths.sort()` / `repositories.sort_by(|a, b| a.path.cmp(&b.path))`:
sorting a list of paths in `pathLe` order. -/
def sortPaths : List FPath → List FPath
  | [] => []
  | p :: rest => insertPath p (sortPaths rest)

mutual
/-- The `async_walkdir` filter of `find_repositories` (src/src/lib.rs
lines 733-749) applied to one visited entry, together with the recursive
walk below it (mutually with `scanKids`). `pg` says whether the entry's
parent directory contains a `.git` entry. A non-directory is ignored; a
hidden directory is pruned; a directory directly inside a `.git`-holding
parent is pruned (the `name != ".git"` conjunct of the source is kept even
though the hidden-directory rule already pruned every `.git`); every other
directory is yielded into the result and descended into. -/
def scanNode (pg : Bool) (base : FPath) : FSNode → List FPath
  | .file _ => []
  | .dir n cs =>
    if startsWithDot n then []
    else if pg && !(n == ".git") then []
    else (base ++ [n]) :: scanKids (hasGitEntry cs) (base ++ [n]) cs

def scanKids (pg : Bool) (base : FPath) : List FSNode → List FPath
  | [] => []
  | c :: rest => scanNode pg base c ++ scanKids pg base rest
end

/-- `find_repositories` (src/src/lib.rs lines 731-764). The walker never
yields the root itself, only entries below it. If the root does not exist
or is not a directory, `read_dir` fails, the stream yields an `Err` entry
and `entry.unwrap()` panics: modelled as `none`. Otherwise the surviving
entries are collected and sorted (`paths.sort()`). -/
def find_repositories (root : Option FSNode) (base : FPath) : Option (List FPath) :=
  match root with
  | none => none
  | some (.file _) => none
  | some (.dir _ cs) => some (sortPaths (scanKids (hasGitEntry cs) base cs))

mutual
/-- The walk of the superseded `find_repositories` variant
(src/src/main.rs lines 442-456): `walkdir` with `filter_entry` keeping
non-hidden directories not named `.git`, pushing every visited entry that
`is_git_repository` accepts, and descending into reported checkouts
(the `skip_current_dir` call is commented out); no sorting
(mutually with `mainScanKids`). -/
def mainScanNode (base : FPath) : FSNode → List FPath
  | .file _ => []
  | .dir n cs =>
    if startsWithDot n || n == ".git" then []
    else (if hasGitEntry cs then [base ++ [n]] else []) ++ mainScanKids (base ++ [n]) cs

def mainScanKids (base : FPath) : List FSNode → List FPath
  | [] => []
  | c :: rest => mainScanNode base c ++ mainScanKids base rest
end

/-- The superseded `find_repositories` of src/src/main.rs applied to a
root that exists. `walkdir` yields the root entry itself first, so the
`filter_entry` predicate and the checkout probe also apply to the root. -/
def find_repositories_main (base : FPath) : FSNode → List FPath
  | .file _ => []
  | .dir n cs =>
    if startsWithDot n || n == ".git" then []
    else (if hasGitEntry cs then [base] else []) ++ mainScanKids base cs

/-- `Filter` (src/src/lib.rs lines 697-703). -/
inductive Filter where
  | Dirty
  | Tracking

/-- The registry configuration (src/src/lib.rs lines 150-159): the key sets
of the two `HashMap<String, _>` maps, keyed by absolutized path. -/
structure Config where
  repositories : List FPath
  directories : List FPath
deriving Repr, DecidableEq

/-- The empty registry. -/
def emptyConfig : Config := { repositories := [], directories := [] }

/-- `HashMap::insert` on the key set: adds the path if absent. -/
def setInsert (p : FPath) (l : List FPath) : List FPath :=
  if l.contains p then l else l ++ [p]

/-- `HashMap::remove` on the key set: removes the path. -/
def setRemove (p : FPath) (l : List FPath) : List FPath :=
  l.filter (fun q => ¬(q = p))

/-- `Config::register` (src/src/lib.rs lines 221-240). `isRepo` is the value
of `is_git_repository(path)` probed at the moment of this call. A
non-repository path is inserted into the directories map, a repository path
into the repositories map; the other map is left untouched. -/
def Config.register (isRepo : Bool) (p : FPath) (c : Config) : Config :=
  if !isRepo then { c with directories := setInsert p c.directories }
  else { c with repositories := setInsert p c.repositories }

/-- `Config::unregister` (src/src/lib.rs lines 243-252): removes the path
from both maps. -/
def Config.unregister (p : FPath) (c : Config) : Config :=
  { repositories := setRemove p c.repositories, directories := setRemove p c.directories }

/-- Registry states reachable from the empty registry by `register` and
`unregister` calls when the checkout probe gives the same answers at every
call (the filesystem classification of paths never changes between calls). -/
inductive ReachableFixed (probe : FPath → Bool) : Config → Prop where
  | empty : ReachableFixed probe emptyConfig
  | reg (p : FPath) {c : Config} :
      ReachableFixed probe c → ReachableFixed probe (Config.register (probe p) p c)
  | unreg (p : FPath) {c : Config} :
      ReachableFixed probe c → ReachableFixed probe (Config.unregister p c)

/-- One predicate evaluation pass of the `retain` closure in
`all_repositories` (src/src/lib.rs lines 317-338): the requested filters
are tried in order, `Dirty` querying `state()` (`sq`) and `Tracking`
querying `has_tracking_branch()` (`tq`), each result force-unwrapped
(`none` models the panic on a failed query); the first filter that matches
returns `true`, and a repository matching no filter yields `false`. -/
def evalFilters (sq tq : FPath → Option Bool) : List Filter → FPath → Option Bool
  | [], _ => some false
  | .Dirty :: rest, r =>
    match sq r with
    | none => none
    | some true => some true
    | some false => evalFilters sq tq rest r
  | .Tracking :: rest, r =>
    match tq r with
    | none => none
    | some true => some true
    | some false => evalFilters sq tq rest r

/-- `Vec::retain` with a panicking predicate: keeps the elements whose
predicate is `some true`, drops `some false`, and aborts on `none`. -/
def retainFiltered (pred : FPath → Option Bool) : List FPath → Option (List FPath)
  | [] => some []
  | r :: rs =>
    match pred r with
    | none => none
    | some true => (retainFiltered pred rs).map (fun l => r :: l)
    | some false => retainFiltered pred rs

/-- The filter block of `all_repositories` (src/src/lib.rs lines 315-340):
no filtering when the filter argument is `None` or the empty list,
otherwise `retain` with `evalFilters`. -/
def applyFilter (sq tq : FPath → Option Bool) (filter : Option (List Filter))
    (repos : List FPath) : Option (List FPath) :=
  match filter with
  | none => some repos
  | some fl => if fl.isEmpty then some repos else retainFiltered (evalFilters sq tq fl) repos

/-- `noneify` (src/src/lib.rs lines 777-783). -/
def noneify {T : Type} (v : List T) : Option (List T) :=
  if v.isEmpty then none else some v

/-- The loop of `all_repositories` over `config.directories`
(src/src/lib.rs lines 306-312): each registered container is scanned with
`find_repositories` and the results concatenated; a scan panic aborts. -/
def scanContainers (fs : FSNode) : List FPath → Option (List FPath)
  | [] => some []
  | d :: ds =>
    match find_repositories (lookup fs d) d with
    | none => none
    | some rs =>
      match scanContainers fs ds with
      | none => none
      | some rest => some (rs ++ rest)

/-- `Multigit::all_repositories` (src/src/lib.rs lines 288-343). When the
scope override `directory` is present, the function returns the scan of
that directory immediately (the `return` on line 299), reaching neither the
filter block nor the final `sort_by`. Otherwise the registered repositories
and the scans of all registered containers are concatenated, filtered and
sorted. -/
def all_repositories (fs : FSNode) (sq tq : FPath → Option Bool) (cfg : Config)
    (directory : Option FPath) (filter : Option (List Filter)) : Option (List FPath) :=
  match directory with
  | some d => find_repositories (lookup fs d) d
  | none =>
    match scanContainers fs cfg.directories with
    | none => none
    | some scanned =>
      match applyFilter sq tq filter (cfg.repositories ++ scanned) with
      | none => none
      | some kept => some (sortPaths kept)

/-- The loop of `Multigit::process_repositories` (src/src/lib.rs lines
354-379): visits every repository in order, collecting the failures, and
returns the visit trace together with the collected failures. -/
def processRun (process : FPath → Except String Unit) :
    List FPath → List FPath × List (FPath × String)
  | [] => ([], [])
  | r :: rs =>
    let rest := processRun process rs
    match process r with
    | .ok _ => (r :: rest.1, rest.2)
    | .error e => (r :: rest.1, (r, e) :: rest.2)

/-- `Multigit::process_repositories`: after the loop, `Ok` when no failure
was collected, otherwise an error carrying the number of failing
repositories; paired with the trace of visited repositories. -/
def process_repositories (process : FPath → Except String Unit) (repos : List FPath) :
    List FPath × Except Nat Unit :=
  let res := processRun process repos
  (res.1, if res.2.isEmpty then Except.ok () else Except.error res.2.length)

/-- `Multigit::git_command` (src/src/lib.rs lines 599-642) with the spawned
`git` process abstracted as its exit-status success `runGit`: a failed exit
produces a per-repository error and processing continues via
`process_repositories`. -/
def git_command (runGit : FPath → Bool) (repos : List FPath) :
    List FPath × Except Nat Unit :=
  process_repositories
    (fun r => if runGit r then Except.ok () else Except.error "git command failed") repos

/-- The pre-filter of `Multigit::pull` (src/src/lib.rs lines 665-669):
`filter(|repo| repo.has_tracking_branch().unwrap())` over the working set,
keeping repositories whose query answers `some true`, dropping `some false`
and panicking (`none`) when the query itself fails. -/
def pullSelect (tq : FPath → Option Bool) : List FPath → Option (List FPath)
  | [] => some []
  | r :: rs =>
    match tq r with
    | none => none
    | some true => (pullSelect tq rs).map (fun l => r :: l)
    | some false => pullSelect tq rs

/-- `Multigit::pull` (src/src/lib.rs lines 664-673): resolves the working
set, pre-filters it to tracking repositories, and hands the selection to
`git_command "pull"`. -/
def pull (fs : FSNode) (sq tq : FPath → Option Bool) (runGit : FPath → Bool)
    (cfg : Config) (directory : Option FPath) (filter : Option (List Filter)) :
    Option (List FPath × Except Nat Unit) :=
  match all_repositories fs sq tq cfg directory filter with
  | none => none
  | some repos =>
    match pullSelect tq repos with
    | none => none
    | some sel => some (git_command runGit sel)

/-- `Multigit::register` (src/src/lib.rs lines 382-392): with no paths the
current working directory is registered, otherwise each given path is. The
probe is `is_git_repository`, evaluated per call. -/
def register (probe : FPath → Bool) (cwd : FPath) (paths : List FPath) (c : Config) : Config :=
  if paths.isEmpty then Config.register (probe cwd) cwd c
  else paths.foldl (fun acc p => Config.register (probe p) p acc) c

/-- `Multigit::unregister` (src/src/lib.rs lines 395-418): with the `all`
flag the maps are cleared only after an interactive confirmation
(`confirm`); otherwise with no paths the current working directory is
unregistered, else each given path is. -/
def unregister (cwd : FPath) (paths : List FPath) (all confirm : Bool) (c : Config) : Config :=
  if all then (if confirm then emptyConfig else c)
  else if paths.isEmpty then Config.unregister cwd c
  else paths.foldl (fun acc p => Config.unregister p acc) c

/-- `q` lies strictly inside the subtree of `p`. -/
def isUnder (p q : FPath) : Bool :=
  decide (p.length < q.length) && (q.take p.length == p)

/-! Concrete fixtures used by the counterexamples and witnesses. -/

/-- A tree holding a checkout root `a` and a plain directory `b` with a
plain subdirectory `b/d`. -/
def fsPlain : FSNode :=
  .dir "root" [.dir "a" [.dir ".git" []], .dir "b" [.dir "d" []]]

/-- A tree whose checkout `a` holds a nested checkout at `a/vendor/x`. -/
def fsNested : FSNode :=
  .dir "r" [.dir "a" [.dir ".git" [], .dir "vendor" [.dir "x" [.dir ".git" []]]]]

/-- A tree with a container directory `c` holding the checkout `c/a`. -/
def fsDup : FSNode :=
  .dir "root" [.dir "c" [.dir "a" [.dir ".git" []]]]

/-- A tree with a directory `d` holding the checkout `d/r0`. -/
def fsScoped : FSNode :=
  .dir "root" [.dir "d" [.dir "r0" [.dir ".git" []]]]

/-- A registry with two registered checkouts and no containers. -/
def cfgTwo : Config := { repositories := [["ra"], ["rb"]], directories := [] }

/-- A registry registering `c/a` individually and `c` as a container. -/
def cfgDup : Config := { repositories := [["c", "a"]], directories := [["c"]] }

/-- A registry with one checkout and a container path that does not exist
in `fsPlain`. -/
def cfgBad : Config := { repositories := [["a"]], directories := [["nosuch"]] }

/-- An inspector whose every query succeeds with `false` (clean, no
tracking). -/
def inspClean : FPath → Option Bool := fun _ => some false

/-- An inspector whose every query succeeds with `true`. -/
def inspTrue : FPath → Option Bool := fun _ => some true

/-- An inspector failing on `["ra"]` and answering `true` elsewhere. -/
def inspFailA : FPath → Option Bool :=
  fun p => if p = ["ra"] then none else some true

/-- An inspector answering `true` exactly on `["rb"]`. -/
def inspOnlyB : FPath → Option Bool :=
  fun p => if p = ["rb"] then some true else some false

/-- An inspector whose every query fails. -/
def inspFail : FPath → Option Bool := fun _ => none

/-- A git runner whose every invocation exits successfully. -/
def runGitOk : FPath → Bool := fun _ => true

/-- A checkout probe answering `true` on every path. -/
def probeTrue : FPath → Bool := fun _ => true

/-- The sample path registered in the registry counterexamples. -/
def pReg : FPath := ["p"]

end Multigit

namespace Multigit

/-! Order lemmas for the path comparison. -/

theorem charsLt_irrefl (a : List Char) : charsLt a a = false := by
  induction a with
  | nil => rfl
  | cons x xs ih => simp [charsLt, ih]

theorem charsLt_trans (a b c : List Char) : charsLt a b → charsLt b c → charsLt a c := by
  induction a generalizing b c with
  | nil =>
    intro _ h2
    cases b with
    | nil => cases c <;> simp_all [charsLt]
    | cons y ys =>
      cases c with
      | nil => simp [charsLt] at h2
      | cons z zs => simp [charsLt]
  | cons x xs ih =>
    intro h1 h2
    cases b with
    | nil => simp [charsLt] at h1
    | cons y ys =>
      cases c with
      | nil => simp [charsLt] at h2
      | cons z zs =>
        simp only [charsLt] at h1 h2 ⊢
        by_cases hxy : x.toNat < y.toNat
        · by_cases hyz : y.toNat < z.toNat
          · rw [if_pos (Nat.lt_trans hxy hyz)]
          · rw [if_neg hyz] at h2
            by_cases hzy : z.toNat < y.toNat
            · rw [if_pos hzy] at h2; exact absurd h2 (by simp)
            · rw [if_pos (by omega : x.toNat < z.toNat)]
        · rw [if_neg hxy] at h1
          by_cases hyx : y.toNat < x.toNat
          · rw [if_pos hyx] at h1; exact absurd h1 (by simp)
          · rw [if_neg hyx] at h1
            by_cases hyz : y.toNat < z.toNat
            · rw [if_pos (by omega : x.toNat < z.toNat)]
            · rw [if_neg hyz] at h2
              by_cases hzy : z.toNat < y.toNat
              · rw [if_pos hzy] at h2; exact absurd h2 (by simp)
              · rw [if_neg hzy] at h2
                rw [if_neg (by omega : ¬ x.toNat < z.toNat),
                  if_neg (by omega : ¬ z.toNat < x.toNat)]
                exact ih ys zs h1 h2

theorem charsLt_eq_of_not (a b : List Char) (h1 : charsLt a b = false)
    (h2 : charsLt b a = false) : a = b := by
  induction a generalizing b with
  | nil =>
    cases b with
    | nil => rfl
    | cons y ys => simp [charsLt] at h1
  | cons x xs ih =>
    cases b with
    | nil => simp [charsLt] at h2
    | cons y ys =>
      simp only [charsLt] at h1 h2
      by_cases hxy : x.toNat < y.toNat
      · simp [hxy] at h1
      · by_cases hyx : y.toNat < x.toNat
        · simp [hyx] at h2
        · have hnat : x.toNat = y.toNat := by omega
          have hx : x = y := by
            have hc := congrArg Char.ofNat hnat
            simpa [Char.ofNat_toNat] using hc
          subst hx
          rw [if_neg hxy, if_neg hxy] at h1 h2
          rw [ih ys h1 h2]

theorem strLt_irrefl (a : String) : strLt a a = false := charsLt_irrefl a.data

theorem strLt_trans (a b c : String) : strLt a b → strLt b c → strLt a c :=
  charsLt_trans a.data b.data c.data

theorem strLt_eq_of_not (a b : String) (h1 : strLt a b = false) (h2 : strLt b a = false) :
    a = b := String.ext (charsLt_eq_of_not a.data b.data h1 h2)

theorem pathLe_total (a b : FPath) : pathLe a b || pathLe b a := by
  induction a generalizing b with
  | nil => simp [pathLe]
  | cons x xs ih =>
    cases b with
    | nil => simp [pathLe]
    | cons y ys =>
      simp only [pathLe]
      cases hxy : strLt x y with
      | true => simp
      | false =>
        cases hyx : strLt y x with
        | true => simp
        | false => simpa [hxy, hyx] using ih ys

theorem pathLe_trans (a b c : FPath) : pathLe a b → pathLe b c → pathLe a c := by
  induction a generalizing b c with
  | nil => intro _ _; simp [pathLe]
  | cons x xs ih =>
    cases b with
    | nil => intro h; exact absurd h (by simp [pathLe])
    | cons y ys =>
      cases c with
      | nil => intro _ h; exact absurd h (by simp [pathLe])
      | cons z zs =>
        simp only [pathLe]
        cases hxy : strLt x y with
        | true =>
          cases hyz : strLt y z with
          | true => simp [strLt_trans x y z hxy hyz]
          | false =>
            cases hzy : strLt z y with
            | true => intro _ h; simp [hyz, hzy] at h
            | false =>
              have hyzeq : y = z := strLt_eq_of_not y z hyz hzy
              subst hyzeq; simp [hxy]
        | false =>
          cases hyx : strLt y x with
          | true => intro h; simp [hxy, hyx] at h
          | false =>
            have hxyeq : x = y := strLt_eq_of_not x y hxy hyx
            subst hxyeq
            intro h1 h2
            cases hyz : strLt x z with
            | true => simp
            | false =>
              cases hzy : strLt z x with
              | true => simp [hyz, hzy] at h2
              | false =>
                simp only [hyz, hzy, Bool.false_eq_true, if_false] at h2 ⊢
                simp only [strLt_irrefl, Bool.false_eq_true, if_false] at h1
                exact ih ys zs h1 h2

theorem mem_insertPath (p : FPath) (l : List FPath) (b : FPath) (h : b ∈ insertPath p l) :
    b = p ∨ b ∈ l := by
  induction l with
  | nil => simpa [insertPath] using h
  | cons q rest ih =>
    simp only [insertPath] at h
    cases hpq : pathLe p q with
    | true =>
      rw [hpq] at h
      simp only [if_true] at h
      rcases List.mem_cons.mp h with h1 | h1
      · exact Or.inl h1
      · exact Or.inr h1
    | false =>
      rw [hpq] at h
      simp only [Bool.false_eq_true, if_false] at h
      rcases List.mem_cons.mp h with h1 | h1
      · exact Or.inr (List.mem_cons.mpr (Or.inl h1))
      · rcases ih h1 with h2 | h2
        · exact Or.inl h2
        · exact Or.inr (List.mem_cons.mpr (Or.inr h2))

theorem insertPath_sorted (p : FPath) (l : List FPath)
    (h : l.Pairwise (fun a b => pathLe a b = true)) :
    (insertPath p l).Pairwise (fun a b => pathLe a b = true) := by
  induction l with
  | nil => simp [insertPath]
  | cons q rest ih =>
    simp only [insertPath]
    cases hpq : pathLe p q with
    | true =>
      simp only [if_true]
      refine List.Pairwise.cons ?_ h
      intro b hb
      rcases List.mem_cons.mp hb with hb1 | hb1
      · exact hb1 ▸ hpq
      · exact pathLe_trans p q b hpq (List.rel_of_pairwise_cons h hb1)
    | false =>
      simp only [Bool.false_eq_true, if_false]
      have hqp : pathLe q p = true := by
        have := pathLe_total p q
        simpa [hpq] using this
      rcases List.pairwise_cons.mp h with ⟨hq, hrest⟩
      refine List.pairwise_cons.mpr ⟨?_, ih hrest⟩
      intro b hb
      rcases mem_insertPath p rest b hb with hb1 | hb1
      · exact hb1 ▸ hqp
      · exact hq b hb1

theorem sortPaths_sorted (l : List FPath) :
    (sortPaths l).Pairwise (fun a b => pathLe a b = true) := by
  induction l with
  | nil => simp [sortPaths]
  | cons p rest ih => exact insertPath_sorted p (sortPaths rest) ih

/-! Lemmas about the filter pass. -/

theorem retainFiltered_none_of_mem (pred : FPath → Option Bool) (l : List FPath) (r : FPath)
    (hmem : r ∈ l) (hnone : pred r = none) : retainFiltered pred l = none := by
  induction l with
  | nil => cases hmem
  | cons x xs ih =>
    rcases List.mem_cons.mp hmem with h1 | h1
    · subst h1
      simp [retainFiltered, hnone]
    · simp only [retainFiltered]
      cases hx : pred x with
      | none => rfl
      | some b =>
        cases b with
        | true => rw [ih h1]; rfl
        | false => exact ih h1

theorem retainFiltered_sublist (pred : FPath → Option Bool) (l out : List FPath)
    (h : retainFiltered pred l = some out) : List.Sublist out l := by
  induction l generalizing out with
  | nil =>
    simp only [retainFiltered, Option.some_inj] at h
    subst h
    exact List.Sublist.refl []
  | cons x xs ih =>
    simp only [retainFiltered] at h
    cases hx : pred x with
    | none => rw [hx] at h; cases h
    | some b =>
      rw [hx] at h
      cases b with
      | true =>
        cases hrec : retainFiltered pred xs with
        | none => rw [hrec] at h; cases h
        | some rest =>
          rw [hrec] at h
          have h2 : x :: rest = out := by simpa using h
          subst h2
          exact List.Sublist.cons₂ x (ih rest hrec)
      | false => exact List.Sublist.cons x (ih out h)


/-! Lemmas about the registry maps. -/

theorem mem_setInsert_self (p : FPath) (l : List FPath) : p ∈ setInsert p l := by
  unfold setInsert
  by_cases h : l.contains p
  · rw [if_pos h]
    exact List.mem_of_elem_eq_true h
  · rw [if_neg h]
    exact List.mem_append.mpr (Or.inr (List.mem_singleton.mpr rfl))

theorem mem_setInsert (p q : FPath) (l : List FPath) (h : q ∈ setInsert p l) :
    q = p ∨ q ∈ l := by
  unfold setInsert at h
  by_cases hc : l.contains p
  · rw [if_pos hc] at h
    exact Or.inr h
  · rw [if_neg hc] at h
    rcases List.mem_append.mp h with h1 | h1
    · exact Or.inr h1
    · exact Or.inl (List.mem_singleton.mp h1)

theorem not_mem_setRemove_self (p : FPath) (l : List FPath) : p ∉ setRemove p l := by
  intro h
  have := List.mem_filter.mp h
  simp at this

theorem mem_setRemove (p q : FPath) (l : List FPath) (h : q ∈ setRemove p l) : q ∈ l :=
  (List.mem_filter.mp h).1

theorem reachableFixed_classified (probe : FPath → Bool) (c : Config)
    (h : ReachableFixed probe c) :
    (∀ q ∈ c.repositories, probe q = true) ∧ (∀ q ∈ c.directories, probe q = false) := by
  induction h with
  | empty => exact ⟨fun q hq => absurd hq (List.not_mem_nil q), fun q hq => absurd hq (List.not_mem_nil q)⟩
  | reg p hc ih =>
    rcases ih with ⟨ihr, ihd⟩
    unfold Config.register
    cases hp : probe p with
    | true =>
      simp only [Bool.not_true, Bool.false_eq_true, if_false]
      refine ⟨?_, ihd⟩
      intro q hq
      rcases mem_setInsert p q _ hq with h1 | h1
      · exact h1 ▸ hp
      · exact ihr q h1
    | false =>
      simp only [Bool.not_false, if_true]
      refine ⟨ihr, ?_⟩
      intro q hq
      rcases mem_setInsert p q _ hq with h1 | h1
      · exact h1 ▸ hp
      · exact ihd q h1
  | unreg p hc ih =>
    rcases ih with ⟨ihr, ihd⟩
    exact ⟨fun q hq => ihr q (mem_setRemove p q _ hq),
      fun q hq => ihd q (mem_setRemove p q _ hq)⟩

/-! Lemmas about the fan-out loop. -/

theorem processRun_fst (f : FPath → Except String Unit) (l : List FPath) :
    (processRun f l).1 = l := by
  induction l with
  | nil => rfl
  | cons r rs ih =>
    simp only [processRun]
    cases f r with
    | ok v => simpa using ih
    | error e => simpa using ih

theorem processRun_errLen (f : FPath → Except String Unit) (l : List FPath) :
    (processRun f l).2.length = l.countP (fun r => !(f r).isOk) := by
  induction l with
  | nil => rfl
  | cons r rs ih =>
    simp only [processRun, List.countP_cons]
    cases hr : f r with
    | ok v => simp [Except.isOk, Except.toBool, ih]
    | error e => simp [Except.isOk, Except.toBool, ih]

theorem process_repositories_spec (f : FPath → Except String Unit) (l : List FPath) :
    (process_repositories f l).1 = l ∧
    (process_repositories f l).2 =
      (if l.countP (fun r => !(f r).isOk) = 0 then Except.ok ()
       else Except.error (l.countP (fun r => !(f r).isOk))) := by
  constructor
  · exact processRun_fst f l
  · show (if (processRun f l).2.isEmpty then (Except.ok () : Except Nat Unit)
        else Except.error (processRun f l).2.length) = _
    have hlen := processRun_errLen f l
    by_cases h : (processRun f l).2.isEmpty
    · have h0 : l.countP (fun r => !(f r).isOk) = 0 := by
        rw [← hlen]
        exact List.isEmpty_iff_length_eq_zero.mp h
      rw [if_pos h, if_pos h0]
    · have h0 : ¬ l.countP (fun r => !(f r).isOk) = 0 := by
        rw [← hlen]
        intro hz
        exact h (List.isEmpty_iff_length_eq_zero.mpr hz)
      rw [if_neg h, if_neg h0, hlen]

/-! Lemmas about the pull pre-filter. -/

theorem pullSelect_all_some (tq : FPath → Option Bool) (l : List FPath)
    (h : ∀ r ∈ l, tq r ≠ none) :
    pullSelect tq l = some (l.filter (fun r => tq r == some true)) := by
  induction l with
  | nil => rfl
  | cons r rs ih =>
    have hr : tq r ≠ none := h r (List.mem_cons.mpr (Or.inl rfl))
    have hrest : ∀ x ∈ rs, tq x ≠ none :=
      fun x hx => h x (List.mem_cons.mpr (Or.inr hx))
    simp only [pullSelect, List.filter_cons]
    cases hq : tq r with
    | none => exact absurd hq hr
    | some b =>
      cases b with
      | true => rw [ih hrest]; simp
      | false => rw [ih hrest]; simp

theorem pullSelect_none_of_mem (tq : FPath → Option Bool) (l : List FPath) (r : FPath)
    (hmem : r ∈ l) (hnone : tq r = none) : pullSelect tq l = none := by
  induction l with
  | nil => cases hmem
  | cons x xs ih =>
    rcases List.mem_cons.mp hmem with h1 | h1
    · subst h1
      simp [pullSelect, hnone]
    · simp only [pullSelect]
      cases hx : tq x with
      | none => rfl
      | some b =>
        cases b with
        | true => rw [ih h1]; rfl
        | false => exact ih h1


/-! The claims. -/

/-- Claim C1 (code bug). The claim states that `find_repositories` returns
exactly the outermost checkout roots: every returned path satisfies
`is_git_repository` and no returned path lies strictly inside another
returned path. The code violates both conjuncts, against its own doc
comment ("Finds all Git repositories within a given path"): on a tree with
checkout `a`, plain directory `b` and plain subdirectory `b/d`, the lib.rs
scanner returns the non-checkout `b` and the nested `b/d`; and on a tree
with a checkout `a` holding a nested checkout `a/vendor/x`, the main.rs
variant (whose `skip_current_dir` is commented out) reports both, one
strictly inside the other. -/
theorem C1_scanner_reports_non_roots_and_nested :
    find_repositories (some fsPlain) [] = some [["a"], ["b"], ["b", "d"]] ∧
    is_git_repository fsPlain ["b"] = false ∧
    isUnder ["b"] ["b", "d"] = true ∧
    find_repositories_main [] fsNested = [["a"], ["a", "vendor", "x"]] ∧
    isUnder ["a"] ["a", "vendor", "x"] = true := by
  refine ⟨by decide, by decide, by decide, by decide, by decide⟩

/-- Claim C2, counterexample. The claim states that a failed state
inspection during filtering drops the offending checkout silently and
filtering continues. On a registry with checkouts `ra` and `rb` where the
dirtiness query fails for `ra` and succeeds for `rb`, the claim demands the
result `[rb]`; the code instead unwraps the failure and panics, so the
whole invocation produces nothing. -/
theorem C2_inspection_failure_drops_cex :
    all_repositories fsPlain inspFailA inspTrue cfgTwo none (some [Filter.Dirty]) = none := by
  decide

/-- Claim C2, amended: if a state or tracking inspection evaluated during
the filter pass fails for any candidate checkout, the whole
`all_repositories` invocation aborts (the `unwrap` panics); the checkout is
not dropped and filtering of the others does not continue. -/
theorem C2_inspection_failure_aborts (fs : FSNode) (sq tq : FPath → Option Bool)
    (cfg : Config) (fl : List Filter) (r : FPath) (scanned : List FPath)
    (hscan : scanContainers fs cfg.directories = some scanned)
    (hmem : r ∈ cfg.repositories ++ scanned)
    (heval : evalFilters sq tq fl r = none) :
    all_repositories fs sq tq cfg none (some fl) = none := by
  have hfl : fl.isEmpty = false := by
    cases fl with
    | nil => simp [evalFilters] at heval
    | cons a as => rfl
  have hstep : all_repositories fs sq tq cfg none (some fl) =
      (match scanContainers fs cfg.directories with
       | none => none
       | some scanned2 =>
         match applyFilter sq tq (some fl) (cfg.repositories ++ scanned2) with
         | none => none
         | some kept => some (sortPaths kept)) := rfl
  have happ : applyFilter sq tq (some fl) (cfg.repositories ++ scanned) =
      (if fl.isEmpty then some (cfg.repositories ++ scanned)
       else retainFiltered (evalFilters sq tq fl) (cfg.repositories ++ scanned)) := rfl
  rw [hstep, hscan]
  have hnone : applyFilter sq tq (some fl) (cfg.repositories ++ scanned) = none := by
    rw [happ, hfl]
    simp only [Bool.false_eq_true, if_false]
    exact retainFiltered_none_of_mem _ _ r hmem heval
  show (match applyFilter sq tq (some fl) (cfg.repositories ++ scanned) with
    | none => none
    | some kept => some (sortPaths kept)) = none
  rw [hnone]

/-- Witness for C2: a concrete invocation with a failing tracking query
aborts, through the amended theorem. -/
theorem C2_inspection_failure_aborts_witness :
    all_repositories fsPlain inspTrue inspFailA cfgTwo none (some [Filter.Tracking]) = none :=
  C2_inspection_failure_aborts fsPlain inspTrue inspFailA cfgTwo [Filter.Tracking] ["ra"] []
    rfl (by decide) (by decide)

/-- Claim C3, counterexample. The claim states the resolved working set
never holds two path-equal elements. With the checkout `c/a` registered
individually and its parent `c` registered as a container, the resolver
returns `c/a` twice: `all_repositories` never deduplicates. -/
theorem C3_resolver_duplicates_cex :
    all_repositories fsDup inspClean inspClean cfgDup none none =
      some [["c", "a"], ["c", "a"]] ∧
    ¬ List.Nodup [(["c", "a"] : FPath), ["c", "a"]] := by
  exact ⟨by decide, by decide⟩

/-- Claim C3, amended: every working set produced by `all_repositories` is
sorted by path (`pathLe`), but it is not deduplicated — a checkout that is
both registered individually and discovered under a registered container
appears twice. This theorem proves the surviving sortedness half for every
registry, filesystem, scope override and filter. -/
theorem C3_workingset_sorted (fs : FSNode) (sq tq : FPath → Option Bool) (cfg : Config)
    (directory : Option FPath) (filter : Option (List Filter)) (l : List FPath)
    (h : all_repositories fs sq tq cfg directory filter = some l) :
    l.Pairwise (fun a b => pathLe a b = true) := by
  cases directory with
  | some d =>
    have hstep : all_repositories fs sq tq cfg (some d) filter =
        find_repositories (lookup fs d) d := rfl
    rw [hstep] at h
    cases hl : lookup fs d with
    | none => rw [hl] at h; cases h
    | some node =>
      rw [hl] at h
      cases node with
      | file n => cases h
      | dir n cs =>
        have h2 : sortPaths (scanKids (hasGitEntry cs) d cs) = l := by
          simpa [find_repositories] using h
        rw [← h2]
        exact sortPaths_sorted _
  | none =>
    have hstep : all_repositories fs sq tq cfg none filter =
        (match scanContainers fs cfg.directories with
         | none => none
         | some scanned =>
           match applyFilter sq tq filter (cfg.repositories ++ scanned) with
           | none => none
           | some kept => some (sortPaths kept)) := rfl
    rw [hstep] at h
    cases hs : scanContainers fs cfg.directories with
    | none => rw [hs] at h; cases h
    | some scanned =>
      rw [hs] at h
      have h2 : (match applyFilter sq tq filter (cfg.repositories ++ scanned) with
        | none => none
        | some kept => some (sortPaths kept)) = some l := h
      cases ha : applyFilter sq tq filter (cfg.repositories ++ scanned) with
      | none => rw [ha] at h2; cases h2
      | some kept =>
        rw [ha] at h2
        have h3 : sortPaths kept = l := by simpa using h2
        rw [← h3]
        exact sortPaths_sorted _

/-- Witness for C3: the duplicated working set of the counterexample is
nevertheless sorted, through the amended theorem. -/
theorem C3_workingset_sorted_witness :
    List.Pairwise (fun a b => pathLe a b = true) [(["c", "a"] : FPath), ["c", "a"]] :=
  C3_workingset_sorted fsDup inspClean inspClean cfgDup none none
    [["c", "a"], ["c", "a"]] (by decide)


/-- Claim C4 (code bug). The claim states that scanning a path that does
not exist or is not a directory returns an empty sequence without failing,
and that a registered container that cannot be scanned contributes nothing
while the invocation continues. In the code the walker yields an `Err`
entry for such a root and `find_repositories` unwraps it, panicking
(modelled `none`): a missing root aborts, and a registry whose container
path does not exist aborts the whole `all_repositories` invocation
instead of yielding the registered checkout `a`. -/
theorem C4_scan_missing_root_panics :
    find_repositories none [] = none ∧
    find_repositories (some (FSNode.file "f")) [] = none ∧
    all_repositories fsPlain inspClean inspClean cfgBad none none = none := by
  refine ⟨rfl, rfl, by decide⟩

/-- Claim C5, counterexample. The claim states that in scoped mode a
non-empty filter list is still applied to `scan(scopeOverride)`. With the
scope override `d` whose scan yields the clean checkout `d/r0` and the
filter list `[Dirty]`, the claim demands the empty working set (the Filter
Evaluator would remove `d/r0`, third conjunct); the code instead returns
`d/r0`, because the scoped branch returns before the filter block. -/
theorem C5_scoped_filter_bypassed_cex :
    all_repositories fsScoped inspClean inspTrue cfgDup (some ["d"]) (some [Filter.Dirty]) =
      some [["d", "r0"]] ∧
    inspClean ["d", "r0"] = some false ∧
    applyFilter inspClean inspTrue (some [Filter.Dirty]) [["d", "r0"]] = some [] := by
  refine ⟨by decide, rfl, by decide⟩

/-- Claim C5, amended: with a scope override the resolver ignores all
registered checkouts and containers and the result is exactly
`scan(scopeOverride)` — but the requested filter list is NOT applied
(the early return bypasses the Filter Evaluator): the result is invariant
under both the registry contents and the filter argument. -/
theorem C5_scoped_mode_ignores_registry_and_filter (fs : FSNode)
    (sq tq : FPath → Option Bool) (cfg cfg2 : Config) (d : FPath)
    (filter filter2 : Option (List Filter)) :
    all_repositories fs sq tq cfg (some d) filter = find_repositories (lookup fs d) d ∧
    all_repositories fs sq tq cfg (some d) filter =
      all_repositories fs sq tq cfg2 (some d) filter2 := ⟨rfl, rfl⟩

/-- Claim C6 (confirmed). The Fan-Out Executor attempts every checkout in
order even when earlier checkouts fail — the visit trace equals the input
working set — and the overall result is a failure carrying the number of
failing checkouts exactly when at least one per-checkout outcome is a
failure, succeeding otherwise; both for a general per-checkout operation
(`process_repositories`) and for an external git command whose per-checkout
exit status is `runGit` (`git_command`). -/
theorem C6_fanout_no_short_circuit (process : FPath → Except String Unit)
    (runGit : FPath → Bool) (repos : List FPath) :
    (process_repositories process repos).1 = repos ∧
    (process_repositories process repos).2 =
      (if repos.countP (fun r => !(process r).isOk) = 0 then Except.ok ()
       else Except.error (repos.countP (fun r => !(process r).isOk))) ∧
    (git_command runGit repos).1 = repos ∧
    (git_command runGit repos).2 =
      (if repos.countP (fun r => !(runGit r)) = 0 then Except.ok ()
       else Except.error (repos.countP (fun r => !(runGit r)))) := by
  obtain ⟨h1, h2⟩ := process_repositories_spec process repos
  obtain ⟨h3, h4⟩ := process_repositories_spec
    (fun r => if runGit r then Except.ok () else Except.error "git command failed") repos
  have hfun : (fun r => !((if runGit r then (Except.ok () : Except String Unit)
      else Except.error "git command failed").isOk)) = (fun r => !(runGit r)) := by
    funext r
    cases hr : runGit r <;> simp [Except.isOk, Except.toBool]
  refine ⟨h1, h2, h3, ?_⟩
  show (process_repositories
    (fun r => if runGit r then Except.ok () else Except.error "git command failed") repos).2 = _
  rw [h4, hfun]

/-- Claim C7, counterexample. The claim states that pull-time skipping of
non-tracking checkouts never aborts the invocation even if the tracking
inspection itself fails for some checkout. With checkouts `ra` and `rb`
where `has_tracking_branch` fails on `ra` and answers true on `rb`, the
claim demands that `rb` still be visited; the code unwraps the failure and
the whole `pull` invocation aborts. -/
theorem C7_pull_inspection_failure_aborts_cex :
    pull fsPlain inspTrue inspFailA runGitOk cfgTwo none none = none := by rfl

/-- Claim C7, amended: when every tracking inspection succeeds, `pull`
visits exactly the checkouts whose current branch tracks an upstream —
the selection is the filter of the working set, the executor's visit trace
equals that selection, and a non-tracking checkout is absent from it
(silently skipped, no outcome entry, not a failure); but if the tracking
inspection itself fails for some checkout of the working set, the
pre-filter panics and the invocation aborts. -/
theorem C7_pull_prefilter (tq : FPath → Option Bool) (runGit : FPath → Bool)
    (repos : List FPath) :
    ((∀ r ∈ repos, tq r ≠ none) →
      pullSelect tq repos = some (repos.filter (fun r => tq r == some true)) ∧
      (git_command runGit (repos.filter (fun r => tq r == some true))).1 =
        repos.filter (fun r => tq r == some true)) ∧
    (∀ r ∈ repos, tq r = none → pullSelect tq repos = none) ∧
    (∀ r ∈ repos, tq r = some false →
      r ∉ repos.filter (fun r => tq r == some true)) := by
  refine ⟨fun h => ⟨pullSelect_all_some tq repos h, processRun_fst _ _⟩, ?_, ?_⟩
  · exact fun r hr hn => pullSelect_none_of_mem tq repos r hr hn
  · intro r hr hfalse hmem
    have hq := (List.mem_filter.mp hmem).2
    rw [hfalse] at hq
    simp at hq

/-- Witness for C7: on a concrete working set the pre-filter keeps exactly
the tracking checkout, and a failing inspection aborts, through the amended
theorem. -/
theorem C7_pull_prefilter_witness :
    pullSelect inspOnlyB [["ra"], ["rb"]] = some [["rb"]] ∧
    pullSelect inspFail [["ra"]] = none := by
  constructor
  · exact ((C7_pull_prefilter inspOnlyB runGitOk [["ra"], ["rb"]]).1
      (by decide)).1.trans (by decide)
  · exact (C7_pull_prefilter inspFail runGitOk [["ra"]]).2.1 ["ra"] (by decide) rfl


/-- Claim C8, counterexample. The claim states that no path is ever in both
registry maps at once across register/unregister sequences. Registering `p`
while it is a plain directory (probe false) and registering it again after
it became a checkout (probe true) leaves `p` in both maps: `register`
inserts into one map without removing the path from the other. -/
theorem C8_register_reclassification_cex :
    pReg ∈ (Config.register true pReg (Config.register false pReg emptyConfig)).repositories ∧
    pReg ∈ (Config.register true pReg (Config.register false pReg emptyConfig)).directories := by
  refine ⟨by decide, by decide⟩

/-- Claim C8, amended: each `register` call classifies the path into
exactly one map — the repositories map when the probe holds, the
directories map otherwise — and touches only that map, and `unregister`
removes the path from both; mutual exclusion of the two maps holds at
every state reachable while the checkout probe answers consistently
across calls, but not when a path's probe answer changes between two
registrations of the same path. -/
theorem C8_exclusion_under_fixed_probe (probe : FPath → Bool) (c : Config)
    (h : ReachableFixed probe c) (p : FPath) :
    ¬(p ∈ c.repositories ∧ p ∈ c.directories) ∧
    (∀ (q : FPath) (c2 : Config),
      (Config.register true q c2).directories = c2.directories ∧
      (Config.register false q c2).repositories = c2.repositories ∧
      (Config.unregister q c2).repositories = setRemove q c2.repositories ∧
      (Config.unregister q c2).directories = setRemove q c2.directories) := by
  constructor
  · rintro ⟨hr, hd⟩
    obtain ⟨cr, cd⟩ := reachableFixed_classified probe c h
    have h1 := cr p hr
    have h2 := cd p hd
    rw [h1] at h2
    exact absurd h2 (by simp)
  · intro q c2
    exact ⟨rfl, rfl, rfl, rfl⟩

/-- Witness for C8: the single-registration state reached with an
unchanging probe keeps the maps mutually exclusive, through the amended
theorem. -/
theorem C8_exclusion_under_fixed_probe_witness :
    ¬(pReg ∈ (Config.register (probeTrue pReg) pReg emptyConfig).repositories ∧
      pReg ∈ (Config.register (probeTrue pReg) pReg emptyConfig).directories) :=
  (C8_exclusion_under_fixed_probe probeTrue _
    (ReachableFixed.reg pReg ReachableFixed.empty) pReg).1

/-- Claim C9 (confirmed). The Filter Evaluator is the identity when the
filter list is absent and when it is explicitly empty (and `noneify` maps
the empty CLI filter vector to the absent filter); when it does produce a
working set, that output is a sublist of its input — elements are only
removed, never added or reordered. -/
theorem C9_filter_identity_and_sublist (sq tq : FPath → Option Bool) (repos : List FPath) :
    applyFilter sq tq none repos = some repos ∧
    applyFilter sq tq (some []) repos = some repos ∧
    noneify ([] : List Filter) = none ∧
    (∀ (x : Filter) (xs : List Filter), noneify (x :: xs) = some (x :: xs)) ∧
    (∀ (filter : Option (List Filter)) (out : List FPath),
      applyFilter sq tq filter repos = some out → List.Sublist out repos) := by
  refine ⟨rfl, rfl, rfl, fun x xs => rfl, ?_⟩
  intro filter out h
  cases filter with
  | none =>
    have h2 : repos = out := by simpa [applyFilter] using h
    rw [← h2]
  | some fl =>
    by_cases hfl : fl.isEmpty
    · have h2 : repos = out := by simpa [applyFilter, hfl] using h
      rw [← h2]
    · have h2 : retainFiltered (evalFilters sq tq fl) repos = some out := by
        simpa [applyFilter, hfl] using h
      exact retainFiltered_sublist _ _ _ h2

/-- Witness for C9: on a concrete working set a Dirty filter keeping only
`rb` yields a sublist of the input, through the theorem. -/
theorem C9_filter_identity_witness :
    List.Sublist [(["rb"] : FPath)] [["ra"], ["rb"]] :=
  (C9_filter_identity_and_sublist inspOnlyB inspTrue [["ra"], ["rb"]]).2.2.2.2
    (some [Filter.Dirty]) [["rb"]] (by decide)

/-- Claim C10 (confirmed). `register` with an empty path list registers the
current working directory (classified by the probe at that moment into the
repositories map when it is a checkout, into the directories map
otherwise), and `unregister` with an empty path list and without the `all`
flag unregisters the current working directory, removing it from both
maps. -/
theorem C10_empty_paths_default_to_cwd (probe : FPath → Bool) (cwd : FPath) (c : Config) :
    register probe cwd [] c = Config.register (probe cwd) cwd c ∧
    (probe cwd = true → cwd ∈ (register probe cwd [] c).repositories) ∧
    (probe cwd = false → cwd ∈ (register probe cwd [] c).directories) ∧
    unregister cwd [] false false c = Config.unregister cwd c ∧
    cwd ∉ (unregister cwd [] false false c).repositories ∧
    cwd ∉ (unregister cwd [] false false c).directories := by
  refine ⟨rfl, ?_, ?_, rfl, ?_, ?_⟩
  · intro hp
    show cwd ∈ (Config.register (probe cwd) cwd c).repositories
    rw [hp]
    unfold Config.register
    simp only [Bool.not_true, Bool.false_eq_true, if_false]
    exact mem_setInsert_self cwd c.repositories
  · intro hp
    show cwd ∈ (Config.register (probe cwd) cwd c).directories
    rw [hp]
    unfold Config.register
    simp only [Bool.not_false, if_true]
    exact mem_setInsert_self cwd c.directories
  · show cwd ∉ (Config.unregister cwd c).repositories
    exact not_mem_setRemove_self cwd c.repositories
  · show cwd ∉ (Config.unregister cwd c).directories
    exact not_mem_setRemove_self cwd c.directories

/-- Witness for C10: a concrete register with no paths puts the current
directory into the repositories map, and a concrete unregister with no
paths removes it, through the theorem. -/
theorem C10_empty_paths_default_to_cwd_witness :
    pReg ∈ (register probeTrue pReg [] emptyConfig).repositories ∧
    pReg ∉ (unregister pReg [] false false emptyConfig).repositories :=
  ⟨(C10_empty_paths_default_to_cwd probeTrue pReg emptyConfig).2.1 rfl,
   (C10_empty_paths_default_to_cwd probeTrue pReg emptyConfig).2.2.2.2.1⟩

end Multigit
